import Mathlib

/-!
Shallow embedding of the card game "51" (src/51.py): card model, option
building, the heuristic filter pipeline (WeakAI and its subclasses), the
exact endgame solver, the Monte Carlo select, the deck and the game loop.
Python integers are modelled as ℤ (no overflow in Python), card identifiers
as ℕ in [0, 32), probabilities as exact rationals ℚ (the source divides
Python ints, producing floats; the normalization property is stated over
exact arithmetic as the claim does). Python exceptions are modelled by
Option results. In-place list mutation is modelled by returning the new
list.
-/

/-- A face value of the source's `values` table: either a fixed integer or a
flexible pair of alternatives (`[-10, 10]` and `[1, 11]` in the table). -/
inductive CardVal where
  | fixed : ℤ → CardVal
  | flex : ℤ → ℤ → CardVal
deriving DecidableEq

/-- Source line 13: `values = [7, 8, 0, [-10, 10], 2, 3, 4, [1, 11]]`. -/
def values : List CardVal :=
  [.fixed 7, .fixed 8, .fixed 0, .flex (-10) 10, .fixed 2, .fixed 3, .fixed 4, .flex 1 11]

/-- Source line 14: `NCARDS = 5`. -/
def NCARDS : ℕ := 5

/-- The list of legal play values of a `CardVal` (one for a fixed card, the
two alternatives in table order for a flexible card). -/
def cardValList : CardVal → List ℤ
  | .fixed v => [v]
  | .flex a b => [a, b]

/-- The face value of a card identifier: `values[card % 8]`. The index is
always in bounds since `card % 8 < 8`; the `getD` default is unreachable. -/
def faceVal (card : ℕ) : CardVal := values.getD (card % 8) (.fixed 0)

/-- The legal play values of the card occupying a slot (`values[card % 8]`
flattened to a list, as `build_options` and the AIs enumerate them). -/
def legalVals (card : ℕ) : List ℤ := cardValList (faceVal card)

/-- Source `build_options(cards, heap)` (lines 382-392): for each of the 5
slots, one `(val + heap, slot)` option per legal value of the card there.
Python would raise on a short hand; `getD` gives an unreachable default,
and the theorems assume a 5-card hand. -/
def build_options (cards : List ℕ) (heap : ℤ) : List (ℤ × ℕ) :=
  (List.range NCARDS).flatMap (fun s => (legalVals (cards.getD s 0)).map (fun v => (v + heap, s)))

/-- Source `WeakAI.filter_options` (lines 144-149): replace the option list
with the subset satisfying `f`, unless that subset is empty, in which case
the list is left unchanged. -/
def filter_options (options : List (ℤ × ℕ)) (f : ℤ → ℕ → Bool) : List (ℤ × ℕ) :=
  let filtered := options.filter (fun p => f p.1 p.2)
  if filtered.isEmpty then options else filtered

/-- Source `WeakAI.filter_win` (lines 151-152): keep options reaching 51. -/
def filter_win (options : List (ℤ × ℕ)) : List (ℤ × ℕ) :=
  filter_options options (fun k _ => k == 51)

/-- Source `WeakAI.filter_nolose` (lines 154-155): keep options below 52. -/
def filter_nolose (options : List (ℤ × ℕ)) : List (ℤ × ℕ) :=
  filter_options options (fun k _ => decide (k < 52))

/-- Source `WeakAI.filter_safe` (lines 157-158): keep options whose heap is
not in the strategy's unsafe-value list. -/
def filter_safe (unsafe_values : List ℤ) (options : List (ℤ × ℕ)) : List (ℤ × ℕ) :=
  filter_options options (fun k _ => !(unsafe_values.contains k))

/-- One step of Python's `dict(options)`: insert a `(key, value)` pair,
overwriting the value of an existing key in place (keys keep first-insertion
order, values are the last seen). -/
def dictInsert (acc : List (ℤ × ℕ)) (p : ℤ × ℕ) : List (ℤ × ℕ) :=
  if acc.any (fun q => q.1 == p.1) then
    acc.map (fun q => if q.1 == p.1 then (q.1, p.2) else q)
  else acc ++ [p]

/-- Python's `list(dict(options).items())`: one entry per distinct key, in
first-insertion key order, each carrying the last value seen for that key. -/
def dictItems (l : List (ℤ × ℕ)) : List (ℤ × ℕ) := l.foldl dictInsert []

/-- Source `WeakAI.filter_duplicates` (lines 160-162): keep the options whose
`(heap, slot)` pair is NOT among `dict(options).items()` (no-op when that
subset is empty, i.e. when no heap value is duplicated). -/
def filter_duplicates (options : List (ℤ × ℕ)) : List (ℤ × ℕ) :=
  let uniques := dictItems options
  filter_options options (fun k v => !(uniques.contains (k, v)))

/-- Source `WeakAI.filter_singlevalued` (lines 164-167): the resulting heaps
of the fixed-value faces, `[v + heap for v in values if isinstance(v, int)]`. -/
def single_vals (heap : ℤ) : List ℤ :=
  values.filterMap (fun v => match v with | .fixed x => some (x + heap) | .flex _ _ => none)

/-- Source `WeakAI.filter_singlevalued` (lines 164-167): keep options whose
resulting heap comes from a fixed-value card. -/
def filter_singlevalued (options : List (ℤ × ℕ)) (heap : ℤ) : List (ℤ × ℕ) :=
  filter_options options (fun k _ => (single_vals heap).contains k)

/-- Descending lexicographic comparison on options, as Python's
`options.sort(reverse=True)` orders `(heap, slot)` tuples. -/
def optGE (a b : ℤ × ℕ) : Bool :=
  decide (b.1 < a.1) || (a.1 == b.1 && decide (b.2 ≤ a.2))

/-- Insertion into a descending-sorted option list. -/
def insertDesc (x : ℤ × ℕ) : List (ℤ × ℕ) → List (ℤ × ℕ)
  | [] => [x]
  | y :: ys => if optGE x y then x :: y :: ys else y :: insertDesc x ys

/-- Source `options.sort(reverse=True)` (line 209): descending sort. -/
def sortDesc (l : List (ℤ × ℕ)) : List (ℤ × ℕ) := l.foldr insertDesc []

/-- Source `WeakAI.select` (lines 169-212): build options, filter by win,
no-lose, safe, duplicates, single-valued, sort descending and return
`(slot, best_heap - heap)`. The unsafe-value list is the strategy state built
in `WeakAI.__init__`; an empty option list (unreachable for a 5-card hand,
where Python would raise) yields `none`. -/
def weakSelect (unsafe_values : List ℤ) (cards : List ℕ) (heap : ℤ) : Option (ℕ × ℤ) :=
  let o0 := build_options cards heap
  let o1 := filter_win o0
  let o2 := filter_nolose o1
  let o3 := filter_safe unsafe_values o2
  let o4 := filter_duplicates o3
  let o5 := filter_singlevalued o4 heap
  match (sortDesc o5).head? with
  | some p => some (p.2, p.1 - heap)
  | none => none

/-- StrongAI inherits `WeakAI.select` unchanged (it only overrides the
seen-card bookkeeping that evolves the unsafe-value list), so its select is
`weakSelect` applied to its own unsafe-value list. -/
def strongSelect (unsafe_values : List ℤ) (cards : List ℕ) (heap : ℤ) : Option (ℕ × ℤ) :=
  weakSelect unsafe_values cards heap

/-- Source `value_to_card(value)` (lines 502-510): the first face index whose
value list contains `value`, `none` when no face does (Python returns None). -/
def value_to_card (value : ℤ) : Option ℕ :=
  (List.range values.length).find? (fun i => (cardValList (values.getD i (.fixed 0))).contains value)

/-- Source `StrongerAI.filter_safe` (lines 263-272): after the plain safety
filter, if the first surviving option is still unsafe and several options
remain, keep the options whose face (the one reaching 51 from their heap)
has been seen most often. `seen` is the per-face counter list; a failed
`value_to_card` lookup (where Python would raise indexing `seen[None]`,
unreachable since every surviving unsafe heap is 51 minus a card value)
defaults to face 0. -/
def strongerFilterSafe (unsafe_values : List ℤ) (seen : List ℕ) (options : List (ℤ × ℕ)) :
    List (ℤ × ℕ) :=
  let o := filter_safe unsafe_values options
  match o.head? with
  | none => o
  | some p =>
    if unsafe_values.contains p.1 && decide (1 < o.length) then
      let reasons := o.map (fun q => (q.1, q.2, (seen.getD ((value_to_card (51 - q.1)).getD 0) 0)))
      let most := (reasons.map (fun r => r.2.2)).foldl max 0
      (reasons.filter (fun r => r.2.2 == most)).map (fun r => (r.1, r.2.1))
    else o

/-- StrongerAI's select is `WeakAI.select` with the overridden safety filter
(dynamic dispatch of `self.filter_safe` in line 200). -/
def strongerSelect (unsafe_values : List ℤ) (seen : List ℕ) (cards : List ℕ) (heap : ℤ) :
    Option (ℕ × ℤ) :=
  let o0 := build_options cards heap
  let o1 := filter_win o0
  let o2 := filter_nolose o1
  let o3 := strongerFilterSafe unsafe_values seen o2
  let o4 := filter_duplicates o3
  let o5 := filter_singlevalued o4 heap
  match (sortDesc o5).head? with
  | some p => some (p.2, p.1 - heap)
  | none => none

/-- Source `DefenseAI.filter_duplicates_offensive` (lines 281-285): like
`filter_duplicates` but additionally protecting options whose heap equals
`heap - 10`, `heap` or `heap + 10` from being dropped. -/
def filter_duplicates_offensive (heap : ℤ) (options : List (ℤ × ℕ)) : List (ℤ × ℕ) :=
  let uniques := dictItems options
  filter_options options
    (fun k v => !(uniques.contains (k, v)) && !([heap - 10, heap, heap + 10].contains k))

/-- Source `DefenseAI.select` (lines 287-300): the WeakAI pipeline with the
StrongerAI safety filter (inherited) and the offensive duplicate filter. -/
def defenseSelect (unsafe_values : List ℤ) (seen : List ℕ) (cards : List ℕ) (heap : ℤ) :
    Option (ℕ × ℤ) :=
  let o0 := build_options cards heap
  let o1 := filter_win o0
  let o2 := filter_nolose o1
  let o3 := strongerFilterSafe unsafe_values seen o2
  let o4 := filter_duplicates_offensive heap o3
  let o5 := filter_singlevalued o4 heap
  match (sortDesc o5).head? with
  | some p => some (p.2, p.1 - heap)
  | none => none

/-- Source `WeakAI.__init__` (lines 131-142): the unsafe-value list,
`51 - v` for every positive fixed or alternative value of the table. -/
def unsafe_values_init : List ℤ :=
  values.foldl (fun acc v =>
    match v with
    | .flex a b => acc ++ (([a, b].filter (fun x => decide (0 < x))).map (fun x => 51 - x))
    | .fixed x => if 0 < x then acc ++ [51 - x] else acc) []

/-- Source `RandomAI.select` (lines 118-123): a random slot and, for a
flexible card, a random alternative. The randomness is injected: `slot` is
the drawn slot and `hi` picks the second alternative. -/
def randomSelect (slot : Fin 5) (hi : Bool) (cards : List ℕ) : ℕ × ℤ :=
  match faceVal (cards.getD slot.val 0) with
  | .fixed v => (slot.val, v)
  | .flex a b => (slot.val, if hi then b else a)

/-- Source `WeakerAI.select` (lines 223-229): win and no-lose filters, then a
uniformly random surviving option. The randomness is injected as the chosen
index `pick`; an out-of-range index (Python's `random.choice` always picks
in range) yields `none`. -/
def weakerSelect (pick : ℕ) (cards : List ℕ) (heap : ℤ) : Option (ℕ × ℤ) :=
  let o := filter_nolose (filter_win (build_options cards heap))
  match o.get? pick with
  | some p => some (p.2, p.1 - heap)
  | none => none

/-- A loss/win/draw outcome vector over exact rationals. -/
structure LWD where
  l : ℚ
  w : ℚ
  d : ℚ
deriving DecidableEq

/-- Componentwise addition, source line 470 `map(sum, zip(result, best))`. -/
def addLWD (a b : LWD) : LWD := ⟨a.l + b.l, a.w + b.w, a.d + b.d⟩

/-- The total of an outcome vector, source line 473 `sum(result)`. -/
def sumLWD (a : LWD) : ℚ := a.l + a.w + a.d

/-- Source `score_lwd(lwd, k)` (lines 486-499) for a 3-entry loss/win/draw
vector: neutral 0.5 on a zero total, the win rate among decided games for a
negative draw-weight, otherwise `(win + k * draw) / total`. -/
def score_lwd (x : LWD) (k : ℚ) : ℚ :=
  if sumLWD x = 0 then 1/2
  else if k < 0 then (if x.w = 0 then 0 else x.w / (x.l + x.w))
  else (x.w + k * x.d) / sumLWD x

/-- Python's `max(lwds, key=...)`: the running maximum, replaced only on a
strictly greater score so the first maximal element wins. -/
def maxByScore (k : ℚ) : LWD → List LWD → LWD
  | acc, [] => acc
  | acc, x :: xs =>
    if score_lwd acc k < score_lwd x k then maxByScore k x xs else maxByScore k acc xs

/-- Source `best_option_from_lwd(lwds, draw_weight=0.9)` (lines 480-483).
Python's `max` raises on an empty list; the default is unreachable. -/
def best_option_from_lwd (lwds : List LWD) (k : ℚ) : LWD :=
  match lwds with
  | [] => ⟨0, 0, 0⟩
  | x :: xs => maxByScore k x xs

mutual

/-- Source `exhaustive_search(hand, unseen, heap)` (lines 409-436): one
outcome vector per option of the hand: an immediate win, an immediate loss,
a draw when the unseen pool is too small for another round, or the
opponent's accumulated response. The source memoizes equal heap values
(its `seen` dict); the computation is pure, so each duplicate equals the
recomputation and the memo table is dropped. `hand.eraseIdx c` is
`hand[:c] + hand[c+1:]`. -/
def exhaustive_search (hand : List ℕ) (unseen : List ℕ) (heap : ℤ) : List LWD :=
  (build_options hand heap).map (fun p =>
    if p.1 = 51 then ⟨0, 1, 0⟩
    else if 51 < p.1 then ⟨1, 0, 0⟩
    else if unseen.length < 7 then ⟨0, 0, 1⟩
    else exhaustive_search_opp p.1 unseen heap (hand.eraseIdx p.2))
termination_by 2 * unseen.length + 1
decreasing_by
  simp_wf

/-- Source `exhaustive_search_opp(option, unseen, heap, new_hand)` (lines
439-477): over every drawn card `nc` and every different opponent card `oc`
and each of its values, accumulate a degenerate outcome (the opponent
reaching 51 is the mover's loss, past 51 the mover's win, a small pool a
draw) or the opponent's best recursive vector, then normalize by the total
when it is positive. `attach` carries the list memberships the termination
argument needs; `heap` is passed along as in the source, which never reads
it. -/
def exhaustive_search_opp (option : ℤ) (unseen : List ℕ) (heap : ℤ) (new_hand : List ℕ) : LWD :=
  let contribs := unseen.attach.flatMap (fun nc =>
    ((unseen.filter (fun c => c != nc.1)).attach.flatMap (fun oc =>
      (legalVals oc.1).map (fun opp_val =>
        let new_heap := option + opp_val
        if new_heap = 51 then (⟨1, 0, 0⟩ : LWD)
        else if 51 < new_heap then ⟨0, 1, 0⟩
        else if unseen.length < 8 then ⟨0, 0, 1⟩
        else
          best_option_from_lwd
            (exhaustive_search (new_hand ++ [nc.1]) ((unseen.erase oc.1).erase nc.1) new_heap)
            (9/10)))))
  let result := contribs.foldl addLWD ⟨0, 0, 0⟩
  let total := sumLWD result
  if 0 < total then ⟨result.l / total, result.w / total, result.d / total⟩ else result
termination_by 2 * unseen.length
decreasing_by
  simp_wf
  have h2 := List.mem_filter.mp oc.2
  have hne : (nc.1 : ℕ) ≠ oc.1 := by
    have hb : (oc.1 : ℕ) ≠ nc.1 := by simpa using h2.2
    exact hb.symm
  have e1 : (unseen.erase oc.1).length = unseen.length - 1 :=
    List.length_erase_of_mem h2.1
  have hmem2 : (nc.1 : ℕ) ∈ unseen.erase oc.1 :=
    (List.mem_erase_of_ne hne).mpr nc.2
  have e2 : ((unseen.erase oc.1).erase nc.1).length = (unseen.erase oc.1).length - 1 :=
    List.length_erase_of_mem hmem2
  have hp := List.length_pos_of_mem hmem2
  omega

end

/-- Source `score_lwd` applied to the Monte Carlo statistics
`[losses, wins, draws, total]` (lines 486-499, the `len(lwd) > 3` branch,
where the total is the stored fourth entry). -/
def score_lwd4 (x : ℕ × ℕ × ℕ × ℕ) (k : ℚ) : ℚ :=
  if x.2.2.2 = 0 then 1/2
  else if k < 0 then (if x.2.1 = 0 then 0 else (x.2.1 : ℚ) / ((x.1 : ℚ) + (x.2.1 : ℚ)))
  else ((x.2.1 : ℚ) + k * (x.2.2.1 : ℚ)) / (x.2.2.2 : ℚ)

/-- Source `MonteCarloAI.build_unseen_deck` (lines 304-309): all 32 cards
minus one copy `v + 8 * i` per count of face `v` seen. Python's
`list.remove` raises on a missing element (unreachable, counts never exceed
4); `List.erase` is a no-op then. -/
def build_unseen_deck (seen : List ℕ) : List ℕ :=
  (List.range 8).foldl (fun deck v =>
    (List.range (seen.getD v 0)).foldl (fun dk i => dk.erase (v + 8 * i)) deck)
    (List.range 32)

/-- One playout update of the Monte Carlo statistics (source lines 369-370):
count the playout result (0 loss, 1 win, 2 draw) and bump the trial count. -/
def bumpStat (st : ℕ × ℕ × ℕ × ℕ) (r : Fin 3) : ℕ × ℕ × ℕ × ℕ :=
  match r with
  | 0 => (st.1 + 1, st.2.1, st.2.2.1, st.2.2.2 + 1)
  | 1 => (st.1, st.2.1 + 1, st.2.2.1, st.2.2.2 + 1)
  | 2 => (st.1, st.2.1, st.2.2.1 + 1, st.2.2.2 + 1)

/-- The simulation loop of source `MonteCarloAI.select` (lines 355-371).
The source picks each round's option index by the UCB1 score — a
real-valued formula over floats (`sqrt`, `log`) — and plays a randomized
full-game rollout (`run_play_out`); both are injected as oracles: round `t`
bumps option `ucb t` with result `playout t`. An out-of-range pick (the
source's argmax is always in range) leaves the statistics unchanged. -/
def mctsLoop (ucb : ℕ → ℕ) (playout : ℕ → Fin 3) (totalsim : ℕ)
    (init : List (ℕ × ℕ × ℕ × ℕ)) : List (ℕ × ℕ × ℕ × ℕ) :=
  (List.range totalsim).foldl (fun res t =>
    match res.get? (ucb t) with
    | some st => res.set (ucb t) (bumpStat st (playout t))
    | none => res) init

/-- Running state for Python's `max(enumerate(result), key=...)` (source
lines 376-377): the best index and score so far, replaced only on a
strictly greater score. -/
def argmaxAux (k : ℚ) : ℕ × ℚ → ℕ → List (ℕ × ℕ × ℕ × ℕ) → ℕ
  | best, _, [] => best.1
  | best, i, x :: xs =>
    if best.2 < score_lwd4 x k then argmaxAux k (i, score_lwd4 x k) (i + 1) xs
    else argmaxAux k best (i + 1) xs

/-- The index of the first statistics entry attaining the maximal score
(Python's `max(enumerate(result), key=...)`; 0 for an empty list, where
Python would raise). -/
def argmaxScore (k : ℚ) : List (ℕ × ℕ × ℕ × ℕ) → ℕ
  | [] => 0
  | x :: xs => argmaxAux k (0, score_lwd4 x k) 1 xs

/-- Source `MonteCarloAI.select` (lines 311-379): the DefenseAI pipeline up
to heap 20; otherwise the win/no-lose-filtered, deduplicated option set,
answered immediately when a single candidate remains, by the safety filter
when fewer than 8 cards are unseen (`self.filter_safe` on a MonteCarloAI
instance dispatches through DefenseAI and StrongerAI to
`StrongerAI.filter_safe`, the seen-count narrowing of all-unsafe sets), by
the exact solver for a small unseen pool (mapping the best vector's index
back into the freshly rebuilt option list), and by the Monte Carlo
simulation loop otherwise. Randomness (UCB1 picks and playout results) is
injected via `ucb` and `playout`; list accesses Python guarantees in range
yield `none` out of range. -/
def monteCarloSelect (unsafe_values : List ℤ) (seen : List ℕ) (ucb : ℕ → ℕ)
    (playout : ℕ → Fin 3) (cards : List ℕ) (heap : ℤ) : Option (ℕ × ℤ) :=
  if heap ≤ 20 then defenseSelect unsafe_values seen cards heap
  else
    let o := dictItems (filter_nolose (filter_win (build_options cards heap)))
    if o.length = 1 then
      match o.head? with
      | some p => some (p.2, p.1 - heap)
      | none => none
    else
      let ref_unseen := build_unseen_deck seen
      if ref_unseen.length < 8 then
        match (strongerFilterSafe unsafe_values seen o).head? with
        | some p => some (p.2, p.1 - heap)
        | none => none
      else if ref_unseen.length < 10 ∨ (ref_unseen.length = 10 ∧ 42 < heap) then
        let result := exhaustive_search cards ref_unseen heap
        let best := best_option_from_lwd result (9/10)
        match (build_options cards heap).get? (result.indexOf best) with
        | some p => some (p.2, p.1 - heap)
        | none => none
      else
        let stats := mctsLoop ucb playout 1000 (List.replicate o.length (0, 0, 0, 1))
        match o.get? (argmaxScore (9/10) stats) with
        | some p => some (p.2, p.1 - heap)
        | none => none

/-- The deck of source lines 18-41: the 32-card sequence and the drawn
cursor. -/
structure Deck where
  cards : List ℕ
  drawn : ℕ

/-- Source `Deck.draw(n)` (lines 34-41): fail when fewer than `n` cards
remain — the source raises before any mutation, so the unchanged deck is
returned alongside `none` — otherwise return the next `n` cards, the slice
`cards[drawn : drawn + n]` (the source unwraps the singleton when `n = 1`),
and the deck with its cursor advanced by `n`. -/
def Deck.draw (d : Deck) (n : ℕ) : Option (List ℕ) × Deck :=
  if 32 < n + d.drawn then (none, d)
  else (some ((d.cards.drop d.drawn).take n), { d with drawn := d.drawn + n })

/-- A stateful strategy: private state `σ`, the `select` contract (a slot
and a play value from the heap and hand) and the `mark_seen` hook (source
lines 85-89). -/
structure StratPlayer (σ : Type) where
  select : σ → ℤ → List ℕ → ℕ × ℤ
  markSeen : σ → ℕ → σ

/-- Source `Player.play(heap, last_card, new)` (lines 71-83): observe the
opponent's last card, select a move, replace the played card by the freshly
drawn one, observe it, and return the new heap, the played card, the new
hand and the new strategy state. -/
def playMove {σ : Type} (P : StratPlayer σ) (st : σ) (heap : ℤ) (hand : List ℕ)
    (lastCard : Option ℕ) (new : ℕ) : ℤ × ℕ × List ℕ × σ :=
  let st1 := match lastCard with | some c => P.markSeen st c | none => st
  let sv := P.select st1 heap hand
  (heap + sv.2, hand.getD sv.1 0, hand.set sv.1 new, P.markSeen st1 new)

/-- The game-loop state of source `game` (lines 519-546): the heap, the
deck (card sequence and cursor), both hands and strategy states, whose turn
it is (0 or 1) and the last played card. -/
structure GState (σ1 σ2 : Type) where
  heap : ℤ
  cards : List ℕ
  drawn : ℕ
  hand1 : List ℕ
  hand2 : List ℕ
  st1 : σ1
  st2 : σ2
  current : ℕ
  lastCard : Option ℕ

/-- One iteration of source `game`'s while loop (lines 532-534): the current
player draws (the loop guard keeps `deck.draw(1)` in bounds; its effect is
the card `cards[drawn]` and the cursor advanced by 1) and plays, and the
turn passes (`current = (current + 1) % 2`). -/
def gameStep {σ1 σ2 : Type} (P1 : StratPlayer σ1) (P2 : StratPlayer σ2)
    (s : GState σ1 σ2) : GState σ1 σ2 :=
  let new := s.cards.getD s.drawn 0
  if s.current = 0 then
    let r := playMove P1 s.st1 s.heap s.hand1 s.lastCard new
    { s with heap := r.1, drawn := s.drawn + 1, hand1 := r.2.2.1,
             st1 := r.2.2.2, lastCard := some r.2.1,
             current := (s.current + 1) % 2 }
  else
    let r := playMove P2 s.st2 s.heap s.hand2 s.lastCard new
    { s with heap := r.1, drawn := s.drawn + 1, hand2 := r.2.2.1,
             st2 := r.2.2.2, lastCard := some r.2.1,
             current := (s.current + 1) % 2 }

/-- Source `game`, the while loop of lines 531-534: while the deck has
undrawn cards and the heap is below 51, run one play. Returns the state at
loop exit. -/
def gameLoop {σ1 σ2 : Type} (P1 : StratPlayer σ1) (P2 : StratPlayer σ2)
    (s : GState σ1 σ2) : GState σ1 σ2 :=
  if h : s.drawn < 32 ∧ s.heap < 51 then gameLoop P1 P2 (gameStep P1 P2 s)
  else s
termination_by 32 - s.drawn
decreasing_by
  have hd : (gameStep P1 P2 s).drawn = s.drawn + 1 := by
    simp only [gameStep]
    split <;> rfl
  omega

/-- Source `game`, the terminal classification after the loop (lines
535-546): the mover — index `1 - current` after the final increment — wins
on heap 51 (return `1 - current`), loses past 51 (return `current`, the
opponent's index, i.e. the opponent wins), and otherwise the deck is
exhausted and the game is a draw (return 2). -/
def gameResult {σ1 σ2 : Type} (P1 : StratPlayer σ1) (P2 : StratPlayer σ2)
    (s : GState σ1 σ2) : ℕ :=
  let f := gameLoop P1 P2 s
  if f.heap = 51 then 1 - f.current
  else if 51 < f.heap then f.current
  else 2

/-! ## Helper lemmas about the filter pipeline -/

theorem filter_options_mem {o : List (ℤ × ℕ)} {f : ℤ → ℕ → Bool} {p : ℤ × ℕ}
    (h : p ∈ filter_options o f) : p ∈ o := by
  simp only [filter_options] at h
  split at h
  · exact h
  · exact List.mem_of_mem_filter h

theorem filter_options_ne_nil {o : List (ℤ × ℕ)} {f : ℤ → ℕ → Bool} (h : o ≠ []) :
    filter_options o f ≠ [] := by
  simp only [filter_options]
  split
  · exact h
  · rename_i hc
    intro hnil
    rw [hnil] at hc
    simp at hc

theorem filter_options_all {o : List (ℤ × ℕ)} {f : ℤ → ℕ → Bool}
    (hex : ∃ p ∈ o, f p.1 p.2 = true) : ∀ q ∈ filter_options o f, f q.1 q.2 = true := by
  obtain ⟨p, hp, hf⟩ := hex
  simp only [filter_options]
  split
  · rename_i hc
    rw [List.isEmpty_iff] at hc
    have hmem : p ∈ o.filter (fun p => f p.1 p.2) := List.mem_filter.mpr ⟨hp, hf⟩
    rw [hc] at hmem
    exact absurd hmem (List.not_mem_nil p)
  · intro q hq
    exact (List.mem_filter.mp hq).2

theorem filter_options_eq_self {o : List (ℤ × ℕ)} {f : ℤ → ℕ → Bool}
    (hall : ∀ p ∈ o, f p.1 p.2 = false) : filter_options o f = o := by
  simp only [filter_options]
  have hnil : o.filter (fun p => f p.1 p.2) = [] := by
    rw [List.filter_eq_nil_iff]
    intro p hp
    simp [hall p hp]
  simp [hnil]

theorem mem_of_filter_win {o : List (ℤ × ℕ)} {p : ℤ × ℕ} (h : p ∈ filter_win o) : p ∈ o :=
  filter_options_mem (by simpa [filter_win] using h)

theorem mem_of_filter_nolose {o : List (ℤ × ℕ)} {p : ℤ × ℕ} (h : p ∈ filter_nolose o) : p ∈ o :=
  filter_options_mem (by simpa [filter_nolose] using h)

theorem mem_of_filter_safe {u : List ℤ} {o : List (ℤ × ℕ)} {p : ℤ × ℕ}
    (h : p ∈ filter_safe u o) : p ∈ o :=
  filter_options_mem (by simpa [filter_safe] using h)

theorem mem_of_filter_duplicates {o : List (ℤ × ℕ)} {p : ℤ × ℕ}
    (h : p ∈ filter_duplicates o) : p ∈ o :=
  filter_options_mem (by simpa [filter_duplicates] using h)

theorem mem_of_filter_singlevalued {o : List (ℤ × ℕ)} {heap : ℤ} {p : ℤ × ℕ}
    (h : p ∈ filter_singlevalued o heap) : p ∈ o :=
  filter_options_mem (by simpa [filter_singlevalued] using h)

theorem mem_of_filter_duplicates_offensive {heap : ℤ} {o : List (ℤ × ℕ)} {p : ℤ × ℕ}
    (h : p ∈ filter_duplicates_offensive heap o) : p ∈ o :=
  filter_options_mem (by simpa [filter_duplicates_offensive] using h)

theorem filter_win_ne_nil {o : List (ℤ × ℕ)} (h : o ≠ []) : filter_win o ≠ [] :=
  filter_options_ne_nil h

theorem filter_nolose_ne_nil {o : List (ℤ × ℕ)} (h : o ≠ []) : filter_nolose o ≠ [] :=
  filter_options_ne_nil h

theorem filter_safe_ne_nil {u : List ℤ} {o : List (ℤ × ℕ)} (h : o ≠ []) :
    filter_safe u o ≠ [] :=
  filter_options_ne_nil h

theorem filter_duplicates_ne_nil {o : List (ℤ × ℕ)} (h : o ≠ []) : filter_duplicates o ≠ [] := by
  simp only [filter_duplicates]
  exact filter_options_ne_nil h

theorem filter_singlevalued_ne_nil {o : List (ℤ × ℕ)} {heap : ℤ} (h : o ≠ []) :
    filter_singlevalued o heap ≠ [] :=
  filter_options_ne_nil h

theorem filter_duplicates_offensive_ne_nil {heap : ℤ} {o : List (ℤ × ℕ)} (h : o ≠ []) :
    filter_duplicates_offensive heap o ≠ [] := by
  simp only [filter_duplicates_offensive]
  exact filter_options_ne_nil h

theorem mem_insertDesc {x p : ℤ × ℕ} {l : List (ℤ × ℕ)} :
    p ∈ insertDesc x l ↔ p = x ∨ p ∈ l := by
  induction l with
  | nil => simp [insertDesc]
  | cons y ys ih =>
    simp only [insertDesc]
    split
    · simp [List.mem_cons]
    · simp only [List.mem_cons, ih]
      tauto

theorem mem_sortDesc {l : List (ℤ × ℕ)} {p : ℤ × ℕ} : p ∈ sortDesc l ↔ p ∈ l := by
  induction l with
  | nil => simp [sortDesc]
  | cons x xs ih =>
    show p ∈ insertDesc x (sortDesc xs) ↔ _
    rw [mem_insertDesc, ih]
    simp [List.mem_cons]

theorem insertDesc_ne_nil {x : ℤ × ℕ} {l : List (ℤ × ℕ)} : insertDesc x l ≠ [] := by
  cases l with
  | nil => simp [insertDesc]
  | cons y ys =>
    simp only [insertDesc]
    split <;> simp

theorem sortDesc_ne_nil {l : List (ℤ × ℕ)} (h : l ≠ []) : sortDesc l ≠ [] := by
  cases l with
  | nil => exact absurd rfl h
  | cons x xs => exact insertDesc_ne_nil

theorem legalVals_ne_nil (c : ℕ) : legalVals c ≠ [] := by
  unfold legalVals
  cases faceVal c <;> simp [cardValList]

theorem build_options_mem {cards : List ℕ} {heap : ℤ} {p : ℤ × ℕ}
    (h : p ∈ build_options cards heap) :
    p.2 < 5 ∧ p.1 - heap ∈ legalVals (cards.getD p.2 0) := by
  simp only [build_options, List.mem_flatMap, List.mem_map, List.mem_range] at h
  obtain ⟨s, hs, v, hv, hp⟩ := h
  rw [← hp]
  refine ⟨by simpa [NCARDS] using hs, ?_⟩
  simpa using hv

theorem build_options_ne_nil (cards : List ℕ) (heap : ℤ) : build_options cards heap ≠ [] := by
  intro h
  simp only [build_options, List.flatMap_eq_nil_iff] at h
  have h0 := h 0 (by simp [NCARDS])
  rw [List.map_eq_nil] at h0
  exact legalVals_ne_nil _ h0

theorem dictInsert_mem {acc : List (ℤ × ℕ)} {p q : ℤ × ℕ} (h : q ∈ dictInsert acc p) :
    q ∈ acc ∨ q = p := by
  simp only [dictInsert] at h
  split at h
  · obtain ⟨r, hr, hrq⟩ := List.mem_map.mp h
    by_cases hc : (r.1 == p.1) = true
    · right
      rw [if_pos hc] at hrq
      have he : r.1 = p.1 := by simpa using hc
      rw [← hrq, he]
    · left
      rw [if_neg hc] at hrq
      rw [← hrq]
      exact hr
  · rcases List.mem_append.mp h with h1 | h2
    · exact Or.inl h1
    · exact Or.inr (by simpa using h2)

theorem dictItems_mem {l : List (ℤ × ℕ)} {q : ℤ × ℕ} (h : q ∈ dictItems l) : q ∈ l := by
  suffices H : ∀ acc, q ∈ l.foldl dictInsert acc → q ∈ acc ∨ q ∈ l by
    rcases H [] h with h1 | h2
    · exact absurd h1 (List.not_mem_nil q)
    · exact h2
  clear h
  induction l with
  | nil =>
    intro acc hq
    exact Or.inl hq
  | cons x xs ih =>
    intro acc hq
    rcases ih (dictInsert acc x) hq with h1 | h2
    · rcases dictInsert_mem h1 with ha | hx
      · exact Or.inl ha
      · exact Or.inr (by simp [hx])
    · exact Or.inr (List.mem_cons_of_mem _ h2)

theorem foldl_max_init_le (l : List ℕ) (a : ℕ) : a ≤ l.foldl max a := by
  induction l generalizing a with
  | nil => exact le_refl a
  | cons y ys ih => exact le_trans (le_max_left a y) (ih (max a y))

theorem le_foldl_max {l : List ℕ} {x : ℕ} (h : x ∈ l) (a : ℕ) : x ≤ l.foldl max a := by
  induction l generalizing a with
  | nil => exact absurd h (List.not_mem_nil x)
  | cons y ys ih =>
    rcases List.mem_cons.mp h with hx | hx
    · rw [hx]
      exact le_trans (le_max_right a y) (foldl_max_init_le ys (max a y))
    · exact ih hx (max a y)

theorem foldl_max_mem_or (l : List ℕ) (a : ℕ) : l.foldl max a ∈ l ∨ l.foldl max a = a := by
  induction l generalizing a with
  | nil => exact Or.inr rfl
  | cons y ys ih =>
    rcases ih (max a y) with h1 | h2
    · exact Or.inl (List.mem_cons_of_mem y h1)
    · show ys.foldl max (max a y) ∈ y :: ys ∨ ys.foldl max (max a y) = a
      rcases max_choice a y with hm | hm
      · rw [h2, hm]
        exact Or.inr rfl
      · rw [h2, hm]
        exact Or.inl (List.mem_cons_self y ys)

theorem foldl_max_zero_mem {l : List ℕ} (h : l ≠ []) : l.foldl max 0 ∈ l := by
  rcases foldl_max_mem_or l 0 with hm | h0
  · exact hm
  · match l, h with
    | x :: xs, _ =>
      have hx : x ≤ (x :: xs).foldl max 0 := le_foldl_max (List.mem_cons_self x xs) 0
      rw [h0] at hx
      have hx0 : x = 0 := Nat.le_zero.mp hx
      rw [h0, hx0]
      exact List.mem_cons_self 0 xs

theorem strongerFilterSafe_mem {u : List ℤ} {s : List ℕ} {o : List (ℤ × ℕ)} {q : ℤ × ℕ}
    (h : q ∈ strongerFilterSafe u s o) : q ∈ o := by
  simp only [strongerFilterSafe] at h
  cases hh : (filter_safe u o).head? with
  | none =>
    rw [hh] at h
    exact mem_of_filter_safe h
  | some p =>
    rw [hh] at h
    simp only at h
    split at h
    · obtain ⟨r, hr, hrq⟩ := List.mem_map.mp h
      have hr1 : r ∈ (filter_safe u o).map
          (fun q => (q.1, q.2, (s.getD ((value_to_card (51 - q.1)).getD 0) 0))) :=
        (List.mem_filter.mp hr).1
      obtain ⟨q0, hq0, hq0r⟩ := List.mem_map.mp hr1
      rw [← hrq, ← hq0r]
      exact mem_of_filter_safe hq0
    · exact mem_of_filter_safe h

theorem strongerFilterSafe_ne_nil {u : List ℤ} {s : List ℕ} {o : List (ℤ × ℕ)} (h : o ≠ []) :
    strongerFilterSafe u s o ≠ [] := by
  simp only [strongerFilterSafe]
  have hne : filter_safe u o ≠ [] := filter_safe_ne_nil h
  cases hh : (filter_safe u o).head? with
  | none =>
    rw [List.head?_eq_none_iff] at hh
    exact absurd hh hne
  | some p =>
    simp only
    split
    · set reasons := (filter_safe u o).map
        (fun q => (q.1, q.2, (s.getD ((value_to_card (51 - q.1)).getD 0) 0))) with hreasons
      have hrne : reasons ≠ [] := by
        rw [hreasons]
        intro hnil
        rw [List.map_eq_nil_iff] at hnil
        exact hne hnil
      have hthird : (reasons.map (fun r => r.2.2)).foldl max 0 ∈ reasons.map (fun r => r.2.2) :=
        foldl_max_zero_mem (by
          intro hnil
          rw [List.map_eq_nil_iff] at hnil
          exact hrne hnil)
      obtain ⟨r, hr, hrmax⟩ := List.mem_map.mp hthird
      intro hnil
      rw [List.map_eq_nil_iff, List.filter_eq_nil_iff] at hnil
      exact hnil r hr (by simp [hrmax])
    · exact hne

theorem head?_mem {l : List (ℤ × ℕ)} {p : ℤ × ℕ} (h : l.head? = some p) : p ∈ l := by
  cases l with
  | nil => simp at h
  | cons x xs =>
    simp only [List.head?_cons, Option.some.injEq] at h
    simp [h]

theorem filter_win_all_51 {o : List (ℤ × ℕ)} (hex : ∃ p ∈ o, p.1 = 51) :
    ∀ q ∈ filter_win o, q.1 = 51 := by
  intro q hq
  have hx : ∃ p ∈ o, ((fun (k : ℤ) (_ : ℕ) => k == 51) p.1 p.2) = true := by
    obtain ⟨p, hp, h51⟩ := hex
    exact ⟨p, hp, by simp [h51]⟩
  have hall := filter_options_all hx q (by simpa [filter_win] using hq)
  simpa using hall

theorem filter_nolose_all_le {o : List (ℤ × ℕ)} (hex : ∃ p ∈ o, p.1 ≤ 51) :
    ∀ q ∈ filter_nolose o, q.1 ≤ 51 := by
  intro q hq
  have hx : ∃ p ∈ o, ((fun (k : ℤ) (_ : ℕ) => decide (k < 52)) p.1 p.2) = true := by
    obtain ⟨p, hp, hle⟩ := hex
    refine ⟨p, hp, ?_⟩
    simp only [decide_eq_true_eq]
    omega
  have hall := filter_options_all hx q (by simpa [filter_nolose] using hq)
  simp only [decide_eq_true_eq] at hall
  omega

theorem nolose_stage_le {o : List (ℤ × ℕ)} (hex : ∃ p ∈ o, p.1 ≤ 51) :
    ∀ q ∈ filter_nolose (filter_win o), q.1 ≤ 51 := by
  by_cases hw : ∃ p ∈ o, p.1 = 51
  · intro q hq
    have h51 := filter_win_all_51 hw q (mem_of_filter_nolose hq)
    omega
  · have heq : filter_win o = o := by
      unfold filter_win
      apply filter_options_eq_self
      intro p hp
      simp only [beq_eq_false_iff_ne]
      intro hc
      exact hw ⟨p, hp, hc⟩
    rw [heq]
    exact filter_nolose_all_le hex

theorem weakSelect_spec (u : List ℤ) (cards : List ℕ) (heap : ℤ) :
    ∃ p, p ∈ filter_singlevalued (filter_duplicates (filter_safe u (filter_nolose (filter_win
        (build_options cards heap))))) heap ∧
      weakSelect u cards heap = some (p.2, p.1 - heap) := by
  have h5 : filter_singlevalued (filter_duplicates (filter_safe u (filter_nolose (filter_win
      (build_options cards heap))))) heap ≠ [] :=
    filter_singlevalued_ne_nil (filter_duplicates_ne_nil (filter_safe_ne_nil
      (filter_nolose_ne_nil (filter_win_ne_nil (build_options_ne_nil cards heap)))))
  have hs : sortDesc (filter_singlevalued (filter_duplicates (filter_safe u (filter_nolose
      (filter_win (build_options cards heap))))) heap) ≠ [] := sortDesc_ne_nil h5
  cases hh : (sortDesc (filter_singlevalued (filter_duplicates (filter_safe u (filter_nolose
      (filter_win (build_options cards heap))))) heap)).head? with
  | none =>
    rw [List.head?_eq_none_iff] at hh
    exact absurd hh hs
  | some p =>
    refine ⟨p, mem_sortDesc.mp (head?_mem hh), ?_⟩
    have he : weakSelect u cards heap =
        match (sortDesc (filter_singlevalued (filter_duplicates (filter_safe u (filter_nolose
          (filter_win (build_options cards heap))))) heap)).head? with
        | some p => some (p.2, p.1 - heap)
        | none => none := rfl
    rw [he, hh]

theorem strongerSelect_spec (u : List ℤ) (seen : List ℕ) (cards : List ℕ) (heap : ℤ) :
    ∃ p, p ∈ filter_singlevalued (filter_duplicates (strongerFilterSafe u seen (filter_nolose
        (filter_win (build_options cards heap))))) heap ∧
      strongerSelect u seen cards heap = some (p.2, p.1 - heap) := by
  have h5 : filter_singlevalued (filter_duplicates (strongerFilterSafe u seen (filter_nolose
      (filter_win (build_options cards heap))))) heap ≠ [] :=
    filter_singlevalued_ne_nil (filter_duplicates_ne_nil (strongerFilterSafe_ne_nil
      (filter_nolose_ne_nil (filter_win_ne_nil (build_options_ne_nil cards heap)))))
  have hs : sortDesc (filter_singlevalued (filter_duplicates (strongerFilterSafe u seen
      (filter_nolose (filter_win (build_options cards heap))))) heap) ≠ [] := sortDesc_ne_nil h5
  cases hh : (sortDesc (filter_singlevalued (filter_duplicates (strongerFilterSafe u seen
      (filter_nolose (filter_win (build_options cards heap))))) heap)).head? with
  | none =>
    rw [List.head?_eq_none_iff] at hh
    exact absurd hh hs
  | some p =>
    refine ⟨p, mem_sortDesc.mp (head?_mem hh), ?_⟩
    have he : strongerSelect u seen cards heap =
        match (sortDesc (filter_singlevalued (filter_duplicates (strongerFilterSafe u seen
          (filter_nolose (filter_win (build_options cards heap))))) heap)).head? with
        | some p => some (p.2, p.1 - heap)
        | none => none := rfl
    rw [he, hh]

theorem defenseSelect_spec (u : List ℤ) (seen : List ℕ) (cards : List ℕ) (heap : ℤ) :
    ∃ p, p ∈ filter_singlevalued (filter_duplicates_offensive heap (strongerFilterSafe u seen
        (filter_nolose (filter_win (build_options cards heap))))) heap ∧
      defenseSelect u seen cards heap = some (p.2, p.1 - heap) := by
  have h5 : filter_singlevalued (filter_duplicates_offensive heap (strongerFilterSafe u seen
      (filter_nolose (filter_win (build_options cards heap))))) heap ≠ [] :=
    filter_singlevalued_ne_nil (filter_duplicates_offensive_ne_nil (strongerFilterSafe_ne_nil
      (filter_nolose_ne_nil (filter_win_ne_nil (build_options_ne_nil cards heap)))))
  have hs : sortDesc (filter_singlevalued (filter_duplicates_offensive heap (strongerFilterSafe
      u seen (filter_nolose (filter_win (build_options cards heap))))) heap) ≠ [] :=
    sortDesc_ne_nil h5
  cases hh : (sortDesc (filter_singlevalued (filter_duplicates_offensive heap
      (strongerFilterSafe u seen (filter_nolose (filter_win
      (build_options cards heap))))) heap)).head? with
  | none =>
    rw [List.head?_eq_none_iff] at hh
    exact absurd hh hs
  | some p =>
    refine ⟨p, mem_sortDesc.mp (head?_mem hh), ?_⟩
    have he : defenseSelect u seen cards heap =
        match (sortDesc (filter_singlevalued (filter_duplicates_offensive heap
          (strongerFilterSafe u seen (filter_nolose (filter_win
          (build_options cards heap))))) heap)).head? with
        | some p => some (p.2, p.1 - heap)
        | none => none := rfl
    rw [he, hh]

/-! ## Claim theorems -/

/-- C1: Win-filter dominance — for every unsafe-value state, seen-count
state, 5-card hand, and heap, if the option set built from the hand contains
an option whose resulting heap is 51, then `WeakAI.select` (and likewise the
`DefenseAI.select` variant) returns a `(slot, value)` pair with
`heap + value = 51`. -/
theorem c1_win_filter_dominance (unsafe_values : List ℤ) (seen : List ℕ) (cards : List ℕ)
    (heap : ℤ) (hlen : cards.length = 5)
    (hwin : ∃ p ∈ build_options cards heap, p.1 = 51) :
    (∃ s v, weakSelect unsafe_values cards heap = some (s, v) ∧ heap + v = 51) ∧
    (∃ s v, defenseSelect unsafe_values seen cards heap = some (s, v) ∧ heap + v = 51) := by
  constructor
  · obtain ⟨p, hp, hsel⟩ := weakSelect_spec unsafe_values cards heap
    have hp51 : p.1 = 51 :=
      filter_win_all_51 hwin p (mem_of_filter_nolose (mem_of_filter_safe
        (mem_of_filter_duplicates (mem_of_filter_singlevalued hp))))
    exact ⟨p.2, p.1 - heap, hsel, by omega⟩
  · obtain ⟨p, hp, hsel⟩ := defenseSelect_spec unsafe_values seen cards heap
    have hp51 : p.1 = 51 :=
      filter_win_all_51 hwin p (mem_of_filter_nolose (strongerFilterSafe_mem
        (mem_of_filter_duplicates_offensive (mem_of_filter_singlevalued hp))))
    exact ⟨p.2, p.1 - heap, hsel, by omega⟩

/-- C1 witness: heap 44 with hand `[0, 1, 2, 3, 4]` (slot 0 holds a 7,
reaching exactly 51). -/
theorem c1_witness :
    (∃ s v, weakSelect [] [0, 1, 2, 3, 4] 44 = some (s, v) ∧ 44 + v = 51) ∧
    (∃ s v, defenseSelect [] [] [0, 1, 2, 3, 4] 44 = some (s, v) ∧ 44 + v = 51) :=
  c1_win_filter_dominance [] [] [0, 1, 2, 3, 4] 44 (by decide) (by decide)

/-- C3: No-lose dominance — for every unsafe-value state, seen-count state,
5-card hand, and heap, if the option set contains an option with resulting
heap at most 51, then neither `WeakAI.select` nor the `DefenseAI.select`
variant returns a `(slot, value)` pair with `heap + value > 51`. -/
theorem c3_nolose_dominance (unsafe_values : List ℤ) (seen : List ℕ) (cards : List ℕ)
    (heap : ℤ) (hlen : cards.length = 5)
    (hex : ∃ p ∈ build_options cards heap, p.1 ≤ 51) :
    (∀ s v, weakSelect unsafe_values cards heap = some (s, v) → heap + v ≤ 51) ∧
    (∀ s v, defenseSelect unsafe_values seen cards heap = some (s, v) → heap + v ≤ 51) := by
  constructor
  · intro s v hsv
    obtain ⟨p, hp, hsel⟩ := weakSelect_spec unsafe_values cards heap
    rw [hsel] at hsv
    have hle : p.1 ≤ 51 :=
      nolose_stage_le hex p (mem_of_filter_safe
        (mem_of_filter_duplicates (mem_of_filter_singlevalued hp)))
    have hv : v = p.1 - heap := by
      simpa using congrArg (fun o => o.map Prod.snd) hsv.symm
    omega
  · intro s v hsv
    obtain ⟨p, hp, hsel⟩ := defenseSelect_spec unsafe_values seen cards heap
    rw [hsel] at hsv
    have hle : p.1 ≤ 51 :=
      nolose_stage_le hex p (strongerFilterSafe_mem
        (mem_of_filter_duplicates_offensive (mem_of_filter_singlevalued hp)))
    have hv : v = p.1 - heap := by
      simpa using congrArg (fun o => o.map Prod.snd) hsv.symm
    omega

/-- C3 witness: heap 0 with hand `[0, 1, 2, 3, 4]` (slot 0 yields 7, well
below 51). -/
theorem c3_witness :
    (∀ s v, weakSelect [] [0, 1, 2, 3, 4] 0 = some (s, v) → 0 + v ≤ 51) ∧
    (∀ s v, defenseSelect [] [] [0, 1, 2, 3, 4] 0 = some (s, v) → 0 + v ≤ 51) :=
  c3_nolose_dominance [] [] [0, 1, 2, 3, 4] 0 (by decide) (by decide)

/-- C4: Filter no-op invariant — `filter_options` either replaces the option
list with the non-empty subset satisfying the predicate, or leaves the list
completely unchanged when that subset is empty; consequently it never turns
a non-empty option set into an empty one. -/
theorem c4_filter_noop_invariant (o : List (ℤ × ℕ)) (f : ℤ → ℕ → Bool) (h : o ≠ []) :
    ((o.filter (fun p => f p.1 p.2) ≠ [] ∧
        filter_options o f = o.filter (fun p => f p.1 p.2)) ∨
      (o.filter (fun p => f p.1 p.2) = [] ∧ filter_options o f = o)) ∧
    filter_options o f ≠ [] := by
  refine ⟨?_, filter_options_ne_nil h⟩
  by_cases hc : o.filter (fun p => f p.1 p.2) = []
  · exact Or.inr ⟨hc, by simp [filter_options, hc]⟩
  · refine Or.inl ⟨hc, ?_⟩
    simp only [filter_options]
    rw [if_neg]
    simpa [List.isEmpty_iff] using hc

/-- C4 witness: the win filter on the single option list `[(51, 0)]`. -/
theorem c4_witness :
    (([((51 : ℤ), (0 : ℕ))].filter (fun p => p.1 == 51) ≠ [] ∧
        filter_options [((51 : ℤ), (0 : ℕ))] (fun k _ => k == 51) =
          [((51 : ℤ), (0 : ℕ))].filter (fun p => p.1 == 51)) ∨
      ([((51 : ℤ), (0 : ℕ))].filter (fun p => p.1 == 51) = [] ∧
        filter_options [((51 : ℤ), (0 : ℕ))] (fun k _ => k == 51) = [((51 : ℤ), (0 : ℕ))])) ∧
    filter_options [((51 : ℤ), (0 : ℕ))] (fun k _ => k == 51) ≠ [] :=
  c4_filter_noop_invariant [((51 : ℤ), (0 : ℕ))] (fun k _ => k == 51) (by decide)

/-- C5: the unsafe-value set built at `WeakAI.__init__` from the static
face-value table `[7, 8, 0, [-10, 10], 2, 3, 4, [1, 11]]` as
`{51 - v : v a positive fixed or alternative value}` equals exactly
`{50, 49, 48, 47, 44, 43, 41, 40}`. -/
theorem c5_unsafe_value_set :
    unsafe_values_init.toFinset = ({50, 49, 48, 47, 44, 43, 41, 40} : Finset ℤ) := by
  decide

/-- C10: Heuristic pipeline determinism — the embeddings of the select
methods of WeakAI, StrongAI (which inherits WeakAI's), StrongerAI and
DefenseAI are plain functions of the heap, hand, unsafe-value list and
seen-count list: unlike `randomSelect`, `weakerSelect` and
`monteCarloSelect`, they take no injected randomness source, so two calls
with equal states return the identical `(slot, value)` pair. -/
theorem c10_heuristic_determinism (u1 u2 : List ℤ) (s1 s2 : List ℕ) (c1 c2 : List ℕ)
    (h1 h2 : ℤ) (hu : u1 = u2) (hs : s1 = s2) (hc : c1 = c2) (hh : h1 = h2) :
    weakSelect u1 c1 h1 = weakSelect u2 c2 h2 ∧
    strongSelect u1 c1 h1 = strongSelect u2 c2 h2 ∧
    strongerSelect u1 s1 c1 h1 = strongerSelect u2 s2 c2 h2 ∧
    defenseSelect u1 s1 c1 h1 = defenseSelect u2 s2 c2 h2 := by
  subst hu hs hc hh
  exact ⟨rfl, rfl, rfl, rfl⟩

/-- C10 witness: two calls at heap 40 on the hand `[0, 1, 2, 3, 4]` with the
initial unsafe-value list and zero seen counts agree for all four
variants. -/
theorem c10_witness :
    weakSelect unsafe_values_init [0, 1, 2, 3, 4] 40 =
      weakSelect unsafe_values_init [0, 1, 2, 3, 4] 40 ∧
    strongSelect unsafe_values_init [0, 1, 2, 3, 4] 40 =
      strongSelect unsafe_values_init [0, 1, 2, 3, 4] 40 ∧
    strongerSelect unsafe_values_init [0, 0, 0, 0, 0, 0, 0, 0] [0, 1, 2, 3, 4] 40 =
      strongerSelect unsafe_values_init [0, 0, 0, 0, 0, 0, 0, 0] [0, 1, 2, 3, 4] 40 ∧
    defenseSelect unsafe_values_init [0, 0, 0, 0, 0, 0, 0, 0] [0, 1, 2, 3, 4] 40 =
      defenseSelect unsafe_values_init [0, 0, 0, 0, 0, 0, 0, 0] [0, 1, 2, 3, 4] 40 :=
  c10_heuristic_determinism unsafe_values_init unsafe_values_init
    [0, 0, 0, 0, 0, 0, 0, 0] [0, 0, 0, 0, 0, 0, 0, 0]
    [0, 1, 2, 3, 4] [0, 1, 2, 3, 4] 40 40 rfl rfl rfl rfl

/-- C8: Deck draw contract — for every deck state and every `n ≥ 1`,
`draw(n)` fails exactly when `n + drawn > 32`; on failure the deck state is
unchanged; on success it returns the contiguous slice of `n` cards starting
at the cursor and advances the cursor by exactly `n`, leaving the card
sequence untouched. -/
theorem c8_deck_draw_contract (d : Deck) (n : ℕ) (hn : 1 ≤ n) :
    ((d.draw n).1 = none ↔ 32 < n + d.drawn) ∧
    ((d.draw n).1 = none → (d.draw n).2 = d) ∧
    (∀ cs, (d.draw n).1 = some cs →
      cs = (d.cards.drop d.drawn).take n ∧
      (d.draw n).2.drawn = d.drawn + n ∧ (d.draw n).2.cards = d.cards) := by
  by_cases hc : 32 < n + d.drawn
  · refine ⟨⟨fun _ => hc, fun _ => ?_⟩, fun _ => ?_, fun cs hcs => ?_⟩
    · simp [Deck.draw, hc]
    · simp [Deck.draw, hc]
    · simp [Deck.draw, hc] at hcs
  · refine ⟨⟨fun hnone => ?_, fun h32 => absurd h32 hc⟩, fun hnone => ?_, fun cs hcs => ?_⟩
    · simp [Deck.draw, hc] at hnone
    · simp [Deck.draw, hc] at hnone
    · simp only [Deck.draw, if_neg hc] at hcs ⊢
      simp only [Option.some.injEq] at hcs
      exact ⟨hcs.symm, trivial, trivial⟩

/-- C8 witness: drawing 1 card from a fresh 32-card deck. -/
theorem c8_witness :
    ((Deck.draw ⟨List.range 32, 0⟩ 1).1 = none ↔ 32 < 1 + (Deck.mk (List.range 32) 0).drawn) ∧
    ((Deck.draw ⟨List.range 32, 0⟩ 1).1 = none → (Deck.draw ⟨List.range 32, 0⟩ 1).2 =
      ⟨List.range 32, 0⟩) ∧
    (∀ cs, (Deck.draw ⟨List.range 32, 0⟩ 1).1 = some cs →
      cs = ((Deck.mk (List.range 32) 0).cards.drop (Deck.mk (List.range 32) 0).drawn).take 1 ∧
      (Deck.draw ⟨List.range 32, 0⟩ 1).2.drawn = (Deck.mk (List.range 32) 0).drawn + 1 ∧
      (Deck.draw ⟨List.range 32, 0⟩ 1).2.cards = (Deck.mk (List.range 32) 0).cards) :=
  c8_deck_draw_contract ⟨List.range 32, 0⟩ 1 (by decide)

theorem dictInsert_mem_eq {acc : List (ℤ × ℕ)} {x : ℤ × ℕ} {v : ℕ} :
    (x.1, v) ∈ dictInsert acc x ↔ v = x.2 := by
  simp only [dictInsert]
  split
  · rename_i hany
    rw [List.any_eq_true] at hany
    obtain ⟨r, hr, hro⟩ := hany
    have hr1 : r.1 = x.1 := by simpa using hro
    constructor
    · intro hm
      obtain ⟨q, hq, hqe⟩ := List.mem_map.mp hm
      by_cases hqc : (q.1 == x.1) = true
      · rw [if_pos hqc] at hqe
        have hv := congrArg Prod.snd hqe
        simpa using hv.symm
      · rw [if_neg hqc] at hqe
        exfalso
        apply hqc
        rw [hqe]
        simp
    · intro hv
      subst hv
      refine List.mem_map.mpr ⟨r, hr, ?_⟩
      rw [if_pos (by simp [hr1]), hr1]
  · rename_i hany
    constructor
    · intro hm
      rcases List.mem_append.mp hm with h1 | h2
      · exfalso
        exact hany (List.any_eq_true.mpr ⟨(x.1, v), h1, by simp⟩)
      · have hx : (x.1, v) = x := by simpa using h2
        simpa using congrArg Prod.snd hx
    · intro hv
      subst hv
      exact List.mem_append.mpr (Or.inr (by simp))

theorem dictInsert_mem_ne {acc : List (ℤ × ℕ)} {x : ℤ × ℕ} {k : ℤ} {v : ℕ} (h : k ≠ x.1) :
    (k, v) ∈ dictInsert acc x ↔ (k, v) ∈ acc := by
  simp only [dictInsert]
  split
  · constructor
    · intro hm
      obtain ⟨q, hq, hqe⟩ := List.mem_map.mp hm
      by_cases hqc : (q.1 == x.1) = true
      · rw [if_pos hqc] at hqe
        exfalso
        have h1 : q.1 = k := by simpa using congrArg Prod.fst hqe
        have h2 : q.1 = x.1 := by simpa using hqc
        exact h (h1 ▸ h2)
      · rw [if_neg hqc] at hqe
        rw [← hqe]
        exact hq
    · intro hm
      refine List.mem_map.mpr ⟨(k, v), hm, ?_⟩
      rw [if_neg (by simp [h])]
  · constructor
    · intro hm
      rcases List.mem_append.mp hm with h1 | h2
      · exact h1
      · exfalso
        have hx : (k, v) = x := by simpa using h2
        exact h (by simpa using congrArg Prod.fst hx)
    · intro hm
      exact List.mem_append.mpr (Or.inl hm)

theorem foldl_dictInsert_mem (l : List (ℤ × ℕ)) :
    ∀ (acc : List (ℤ × ℕ)) (k : ℤ) (v : ℕ),
      (k, v) ∈ l.foldl dictInsert acc ↔
        (l.reverse.find? (fun q => q.1 == k) = some (k, v) ∨
          (l.reverse.find? (fun q => q.1 == k) = none ∧ (k, v) ∈ acc)) := by
  induction l with
  | nil =>
    intro acc k v
    simp
  | cons x xs ih =>
    intro acc k v
    show (k, v) ∈ xs.foldl dictInsert (dictInsert acc x) ↔ _
    rw [ih (dictInsert acc x) k v, List.reverse_cons, List.find?_append]
    cases hfx : xs.reverse.find? (fun q => q.1 == k) with
    | some q =>
      show _ ↔ ((Option.some q).or ([x].find? (fun r => r.1 == k)) = some (k, v) ∨
        ((Option.some q).or ([x].find? (fun r => r.1 == k)) = none ∧ (k, v) ∈ acc))
      rw [show (Option.some q).or ([x].find? (fun r => r.1 == k)) = some q from rfl]
      simp
    | none =>
      show _ ↔ ((Option.none).or ([x].find? (fun r => r.1 == k)) = some (k, v) ∨
        ((Option.none).or ([x].find? (fun r => r.1 == k)) = none ∧ (k, v) ∈ acc))
      rw [show (Option.none).or ([x].find? (fun r => r.1 == k)) =
        [x].find? (fun r => r.1 == k) from rfl]
      by_cases hxk : x.1 = k
      · have hfind : [x].find? (fun r => r.1 == k) = some x := by simp [hxk]
        rw [hfind]
        constructor
        · rintro (hfalse | ⟨-, hm⟩)
          · exact absurd hfalse (by simp)
          · left
            have hm2 : (x.1, v) ∈ dictInsert acc x := by rw [hxk]; exact hm
            have hv : v = x.2 := dictInsert_mem_eq.mp hm2
            rw [hv, ← hxk]
        · rintro (hx | ⟨hfalse, -⟩)
          · right
            refine ⟨rfl, ?_⟩
            have hx2 : x = (k, v) := by simpa using hx
            have hv : v = x.2 := by simpa using (congrArg Prod.snd hx2).symm
            have hm2 : (x.1, v) ∈ dictInsert acc x := dictInsert_mem_eq.mpr hv
            rw [← hxk]
            exact hm2
          · exact absurd hfalse (by simp)
      · have hfind : [x].find? (fun r => r.1 == k) = none := by simp [hxk]
        rw [hfind]
        have hrw := @dictInsert_mem_ne acc x k v (fun hk => hxk hk.symm)
        simp [hrw]

theorem dictItems_mem_iff (l : List (ℤ × ℕ)) (p : ℤ × ℕ) :
    p ∈ dictItems l ↔ l.reverse.find? (fun q => q.1 == p.1) = some p := by
  have h := foldl_dictInsert_mem l [] p.1 p.2
  simpa using h

/-- C2 counterexample: for the 5-card hand `[0, 8, 16, 1, 4]` (three cards
of the 7-face, an 8 and a K) at heap 0, the option set is
`[(7,0), (7,1), (7,2), (8,3), (2,4)]` and the anti-duplicate filter yields
`[(7,0), (7,1)]`: two surviving options share the resulting heap 7, and the
first-seen entry `(8,3)` is dropped — contradicting the claim that exactly
one canonical representative per heap value (the first-seen entries)
survives. -/
theorem c2_counterexample :
    filter_duplicates (build_options [0, 8, 16, 1, 4] 0) = [(7, 0), (7, 1)] ∧
    ((7 : ℤ), (0 : ℕ)) ∈ filter_duplicates (build_options [0, 8, 16, 1, 4] 0) ∧
    ((7 : ℤ), (1 : ℕ)) ∈ filter_duplicates (build_options [0, 8, 16, 1, 4] 0) ∧
    ((8 : ℤ), (3 : ℕ)) ∈ build_options [0, 8, 16, 1, 4] 0 ∧
    ((8 : ℤ), (3 : ℕ)) ∉ filter_duplicates (build_options [0, 8, 16, 1, 4] 0) := by
  decide

/-- C2 (amended): the anti-duplicate filter keeps exactly the options that
are NOT the last-listed occurrence of their resulting heap value (the
`dict(options)` canonical entries pair each heap value with its
last-occurrence slot, and the filter's predicate keeps options outside that
set): earlier duplicate occurrences survive, and every option whose heap
value occurs only once is dropped — unless no heap value is duplicated, in
which case the surviving subset would be empty and the option list is
unchanged. -/
theorem c2_anti_duplicate_amended (l : List (ℤ × ℕ)) :
    filter_duplicates l =
      if (l.filter (fun p => !(l.reverse.find? (fun q => q.1 == p.1) == some p))).isEmpty
      then l
      else l.filter (fun p => !(l.reverse.find? (fun q => q.1 == p.1) == some p)) := by
  have hcong : ∀ p : ℤ × ℕ,
      (!((dictItems l).contains (p.1, p.2))) =
        (!(l.reverse.find? (fun q => q.1 == p.1) == some p)) := by
    intro p
    congr 1
    rw [Bool.eq_iff_iff]
    constructor
    · intro hc
      have hm : (p.1, p.2) ∈ dictItems l := by simpa using hc
      have hf := (dictItems_mem_iff l (p.1, p.2)).mp hm
      simpa using hf
    · intro hb
      have hf : l.reverse.find? (fun q => q.1 == p.1) = some p := by simpa using hb
      have hm : p ∈ dictItems l := (dictItems_mem_iff l p).mpr hf
      simpa using hm
  have hstep : filter_duplicates l =
      filter_options l (fun k v => !((dictItems l).contains (k, v))) := rfl
  rw [hstep]
  simp only [filter_options]
  rw [show (fun p : ℤ × ℕ => !((dictItems l).contains (p.1, p.2))) =
    (fun p : ℤ × ℕ => !(l.reverse.find? (fun q => q.1 == p.1) == some p)) from funext hcong]

theorem weak_pipeline_mem {u : List ℤ} {cards : List ℕ} {heap : ℤ} {p : ℤ × ℕ}
    (hp : p ∈ filter_singlevalued (filter_duplicates (filter_safe u (filter_nolose (filter_win
      (build_options cards heap))))) heap) : p ∈ build_options cards heap :=
  mem_of_filter_win (mem_of_filter_nolose (mem_of_filter_safe
    (mem_of_filter_duplicates (mem_of_filter_singlevalued hp))))

theorem stronger_pipeline_mem {u : List ℤ} {seen : List ℕ} {cards : List ℕ} {heap : ℤ}
    {p : ℤ × ℕ}
    (hp : p ∈ filter_singlevalued (filter_duplicates (strongerFilterSafe u seen (filter_nolose
      (filter_win (build_options cards heap))))) heap) : p ∈ build_options cards heap :=
  mem_of_filter_win (mem_of_filter_nolose (strongerFilterSafe_mem
    (mem_of_filter_duplicates (mem_of_filter_singlevalued hp))))

theorem defense_pipeline_mem {u : List ℤ} {seen : List ℕ} {cards : List ℕ} {heap : ℤ}
    {p : ℤ × ℕ}
    (hp : p ∈ filter_singlevalued (filter_duplicates_offensive heap (strongerFilterSafe u seen
      (filter_nolose (filter_win (build_options cards heap))))) heap) :
    p ∈ build_options cards heap :=
  mem_of_filter_win (mem_of_filter_nolose (strongerFilterSafe_mem
    (mem_of_filter_duplicates_offensive (mem_of_filter_singlevalued hp))))

theorem dedup_chain_mem {cards : List ℕ} {heap : ℤ} {p : ℤ × ℕ}
    (h : p ∈ dictItems (filter_nolose (filter_win (build_options cards heap)))) :
    p ∈ build_options cards heap :=
  mem_of_filter_win (mem_of_filter_nolose (dictItems_mem h))

theorem weakerSelect_mem {pick : ℕ} {cards : List ℕ} {heap : ℤ} {s : ℕ} {v : ℤ}
    (h : weakerSelect pick cards heap = some (s, v)) :
    ∃ p ∈ build_options cards heap, s = p.2 ∧ v = p.1 - heap := by
  have he : weakerSelect pick cards heap =
      match (filter_nolose (filter_win (build_options cards heap))).get? pick with
      | some p => some (p.2, p.1 - heap)
      | none => none := rfl
  rw [he] at h
  cases hg : (filter_nolose (filter_win (build_options cards heap))).get? pick with
  | none =>
    rw [hg] at h
    simp at h
  | some p =>
    rw [hg] at h
    simp only [Option.some.injEq, Prod.mk.injEq] at h
    exact ⟨p, mem_of_filter_win (mem_of_filter_nolose (List.get?_mem hg)), h.1.symm, h.2.symm⟩

theorem monteCarloSelect_mem {u : List ℤ} {seen : List ℕ} {ucb : ℕ → ℕ} {playout : ℕ → Fin 3}
    {cards : List ℕ} {heap : ℤ} {s : ℕ} {v : ℤ}
    (h : monteCarloSelect u seen ucb playout cards heap = some (s, v)) :
    ∃ p ∈ build_options cards heap, s = p.2 ∧ v = p.1 - heap := by
  have he : monteCarloSelect u seen ucb playout cards heap =
      if heap ≤ 20 then defenseSelect u seen cards heap
      else if (dictItems (filter_nolose (filter_win (build_options cards heap)))).length = 1 then
        match (dictItems (filter_nolose (filter_win (build_options cards heap)))).head? with
        | some p => some (p.2, p.1 - heap)
        | none => none
      else if (build_unseen_deck seen).length < 8 then
        match (strongerFilterSafe u seen
            (dictItems (filter_nolose (filter_win (build_options cards heap))))).head? with
        | some p => some (p.2, p.1 - heap)
        | none => none
      else if (build_unseen_deck seen).length < 10 ∨
          ((build_unseen_deck seen).length = 10 ∧ 42 < heap) then
        match (build_options cards heap).get?
            ((exhaustive_search cards (build_unseen_deck seen) heap).indexOf
              (best_option_from_lwd
                (exhaustive_search cards (build_unseen_deck seen) heap) (9/10))) with
        | some p => some (p.2, p.1 - heap)
        | none => none
      else
        match (dictItems (filter_nolose (filter_win (build_options cards heap)))).get?
            (argmaxScore (9/10) (mctsLoop ucb playout 1000
              (List.replicate
                (dictItems (filter_nolose (filter_win (build_options cards heap)))).length
                (0, 0, 0, 1)))) with
        | some p => some (p.2, p.1 - heap)
        | none => none := rfl
  rw [he] at h
  clear he
  by_cases h20 : heap ≤ 20
  · rw [if_pos h20] at h
    obtain ⟨p, hp, hsel⟩ := defenseSelect_spec u seen cards heap
    rw [hsel] at h
    simp only [Option.some.injEq, Prod.mk.injEq] at h
    exact ⟨p, defense_pipeline_mem hp, h.1.symm, h.2.symm⟩
  · rw [if_neg h20] at h
    by_cases h1 : (dictItems (filter_nolose (filter_win (build_options cards heap)))).length = 1
    · rw [if_pos h1] at h
      cases hh : (dictItems (filter_nolose (filter_win (build_options cards heap)))).head? with
      | none =>
        rw [hh] at h
        simp at h
      | some p =>
        rw [hh] at h
        simp only [Option.some.injEq, Prod.mk.injEq] at h
        exact ⟨p, dedup_chain_mem (head?_mem hh), h.1.symm, h.2.symm⟩
    · rw [if_neg h1] at h
      by_cases h8 : (build_unseen_deck seen).length < 8
      · rw [if_pos h8] at h
        cases hh : (strongerFilterSafe u seen
            (dictItems (filter_nolose (filter_win (build_options cards heap))))).head? with
        | none =>
          rw [hh] at h
          simp at h
        | some p =>
          rw [hh] at h
          simp only [Option.some.injEq, Prod.mk.injEq] at h
          exact ⟨p, dedup_chain_mem (strongerFilterSafe_mem (head?_mem hh)), h.1.symm, h.2.symm⟩
      · rw [if_neg h8] at h
        by_cases h10 : (build_unseen_deck seen).length < 10 ∨
            ((build_unseen_deck seen).length = 10 ∧ 42 < heap)
        · rw [if_pos h10] at h
          cases hh : (build_options cards heap).get?
              ((exhaustive_search cards (build_unseen_deck seen) heap).indexOf
                (best_option_from_lwd
                  (exhaustive_search cards (build_unseen_deck seen) heap) (9/10))) with
          | none =>
            rw [hh] at h
            simp at h
          | some p =>
            rw [hh] at h
            simp only [Option.some.injEq, Prod.mk.injEq] at h
            exact ⟨p, List.get?_mem hh, h.1.symm, h.2.symm⟩
        · rw [if_neg h10] at h
          cases hh : (dictItems (filter_nolose (filter_win (build_options cards heap)))).get?
              (argmaxScore (9/10) (mctsLoop ucb playout 1000
                (List.replicate
                  (dictItems (filter_nolose (filter_win (build_options cards heap)))).length
                  (0, 0, 0, 1)))) with
          | none =>
            rw [hh] at h
            simp at h
          | some p =>
            rw [hh] at h
            simp only [Option.some.injEq, Prod.mk.injEq] at h
            exact ⟨p, dedup_chain_mem (List.get?_mem hh), h.1.symm, h.2.symm⟩

/-- C9: Select postcondition — for every AI strategy variant (RandomAI,
WeakAI, WeakerAI, StrongAI, StrongerAI, DefenseAI, MonteCarloAI, the
randomized ones over every injected randomness source), for every heap and
5-card hand, the `(slot, value)` pair returned by `select` has
`slot ∈ [0, 5)` and `value` among the legal values of the face of the card
occupying that slot. -/
theorem c9_select_postcondition (unsafe_values : List ℤ) (seen : List ℕ) (ucb : ℕ → ℕ)
    (playout : ℕ → Fin 3) (slot : Fin 5) (hi : Bool) (pick : ℕ) (cards : List ℕ) (heap : ℤ)
    (hlen : cards.length = 5) :
    ((randomSelect slot hi cards).1 < 5 ∧
      (randomSelect slot hi cards).2 ∈ legalVals (cards.getD (randomSelect slot hi cards).1 0)) ∧
    (∀ s v, weakSelect unsafe_values cards heap = some (s, v) →
      s < 5 ∧ v ∈ legalVals (cards.getD s 0)) ∧
    (∀ s v, weakerSelect pick cards heap = some (s, v) →
      s < 5 ∧ v ∈ legalVals (cards.getD s 0)) ∧
    (∀ s v, strongSelect unsafe_values cards heap = some (s, v) →
      s < 5 ∧ v ∈ legalVals (cards.getD s 0)) ∧
    (∀ s v, strongerSelect unsafe_values seen cards heap = some (s, v) →
      s < 5 ∧ v ∈ legalVals (cards.getD s 0)) ∧
    (∀ s v, defenseSelect unsafe_values seen cards heap = some (s, v) →
      s < 5 ∧ v ∈ legalVals (cards.getD s 0)) ∧
    (∀ s v, monteCarloSelect unsafe_values seen ucb playout cards heap = some (s, v) →
      s < 5 ∧ v ∈ legalVals (cards.getD s 0)) := by
  have hweak : ∀ s v, weakSelect unsafe_values cards heap = some (s, v) →
      s < 5 ∧ v ∈ legalVals (cards.getD s 0) := by
    intro s v hsv
    obtain ⟨p, hp, hsel⟩ := weakSelect_spec unsafe_values cards heap
    rw [hsel] at hsv
    simp only [Option.some.injEq, Prod.mk.injEq] at hsv
    have hb := build_options_mem (weak_pipeline_mem hp)
    rw [← hsv.1, ← hsv.2]
    exact hb
  refine ⟨?_, hweak, ?_, hweak, ?_, ?_, ?_⟩
  · have he : randomSelect slot hi cards =
        match faceVal (cards.getD (slot : ℕ) 0) with
        | .fixed w => ((slot : ℕ), w)
        | .flex a b => ((slot : ℕ), if hi then b else a) := rfl
    rw [he]
    cases hfv : faceVal (cards.getD (slot : ℕ) 0) with
    | fixed w =>
      refine ⟨slot.isLt, ?_⟩
      show w ∈ legalVals (cards.getD (slot : ℕ) 0)
      unfold legalVals
      rw [hfv]
      simp [cardValList]
    | flex a b =>
      refine ⟨slot.isLt, ?_⟩
      show (if hi then b else a) ∈ legalVals (cards.getD (slot : ℕ) 0)
      unfold legalVals
      rw [hfv]
      cases hi <;> simp [cardValList]
  · intro s v hsv
    obtain ⟨p, hp, h1, h2⟩ := weakerSelect_mem hsv
    have hb := build_options_mem hp
    rw [h1, h2]
    exact hb
  · intro s v hsv
    obtain ⟨p, hp, hsel⟩ := strongerSelect_spec unsafe_values seen cards heap
    rw [hsel] at hsv
    simp only [Option.some.injEq, Prod.mk.injEq] at hsv
    have hb := build_options_mem (stronger_pipeline_mem hp)
    rw [← hsv.1, ← hsv.2]
    exact hb
  · intro s v hsv
    obtain ⟨p, hp, hsel⟩ := defenseSelect_spec unsafe_values seen cards heap
    rw [hsel] at hsv
    simp only [Option.some.injEq, Prod.mk.injEq] at hsv
    have hb := build_options_mem (defense_pipeline_mem hp)
    rw [← hsv.1, ← hsv.2]
    exact hb
  · intro s v hsv
    obtain ⟨p, hp, h1, h2⟩ := monteCarloSelect_mem hsv
    have hb := build_options_mem hp
    rw [h1, h2]
    exact hb

/-- C9 witness: the postcondition instantiated at the hand `[0, 1, 2, 3, 4]`,
heap 30, with concrete randomness oracles. -/
theorem c9_witness :
    ((randomSelect 0 false [0, 1, 2, 3, 4]).1 < 5 ∧
      (randomSelect 0 false [0, 1, 2, 3, 4]).2 ∈
        legalVals ([0, 1, 2, 3, 4].getD (randomSelect 0 false [0, 1, 2, 3, 4]).1 0)) ∧
    (∀ s v, weakSelect [] [0, 1, 2, 3, 4] 30 = some (s, v) →
      s < 5 ∧ v ∈ legalVals ([0, 1, 2, 3, 4].getD s 0)) ∧
    (∀ s v, weakerSelect 0 [0, 1, 2, 3, 4] 30 = some (s, v) →
      s < 5 ∧ v ∈ legalVals ([0, 1, 2, 3, 4].getD s 0)) ∧
    (∀ s v, strongSelect [] [0, 1, 2, 3, 4] 30 = some (s, v) →
      s < 5 ∧ v ∈ legalVals ([0, 1, 2, 3, 4].getD s 0)) ∧
    (∀ s v, strongerSelect [] [] [0, 1, 2, 3, 4] 30 = some (s, v) →
      s < 5 ∧ v ∈ legalVals ([0, 1, 2, 3, 4].getD s 0)) ∧
    (∀ s v, defenseSelect [] [] [0, 1, 2, 3, 4] 30 = some (s, v) →
      s < 5 ∧ v ∈ legalVals ([0, 1, 2, 3, 4].getD s 0)) ∧
    (∀ s v, monteCarloSelect [] [] (fun _ => 0) (fun _ => 0) [0, 1, 2, 3, 4] 30 = some (s, v) →
      s < 5 ∧ v ∈ legalVals ([0, 1, 2, 3, 4].getD s 0)) :=
  c9_select_postcondition [] [] (fun _ => 0) (fun _ => 0) 0 false 0 [0, 1, 2, 3, 4] 30
    (by decide)

theorem gameStep_drawn {σ1 σ2 : Type} (P1 : StratPlayer σ1) (P2 : StratPlayer σ2)
    (s : GState σ1 σ2) : (gameStep P1 P2 s).drawn = s.drawn + 1 := by
  simp only [gameStep]
  split <;> rfl

theorem gameStep_current {σ1 σ2 : Type} (P1 : StratPlayer σ1) (P2 : StratPlayer σ2)
    (s : GState σ1 σ2) : (gameStep P1 P2 s).current = (s.current + 1) % 2 := by
  simp only [gameStep]
  split <;> rfl

theorem gameLoop_exit {σ1 σ2 : Type} (P1 : StratPlayer σ1) (P2 : StratPlayer σ2) :
    ∀ (k : ℕ) (s : GState σ1 σ2), 32 - s.drawn ≤ k → s.drawn ≤ 32 → s.current ≤ 1 →
      (gameLoop P1 P2 s).drawn ≤ 32 ∧ (gameLoop P1 P2 s).current ≤ 1 ∧
      ¬((gameLoop P1 P2 s).drawn < 32 ∧ (gameLoop P1 P2 s).heap < 51) := by
  intro k
  induction k with
  | zero =>
    intro s hk h32 hcur
    have hcond : ¬(s.drawn < 32 ∧ s.heap < 51) := by omega
    rw [gameLoop, dif_neg hcond]
    exact ⟨h32, hcur, hcond⟩
  | succ k ih =>
    intro s hk h32 hcur
    by_cases hcond : s.drawn < 32 ∧ s.heap < 51
    · rw [gameLoop, dif_pos hcond]
      apply ih
      · rw [gameStep_drawn]
        omega
      · rw [gameStep_drawn]
        omega
      · rw [gameStep_current]
        omega
    · rw [gameLoop, dif_neg hcond]
      exact ⟨h32, hcur, hcond⟩

/-- C6: Game terminal classification — for every pair of (stateful)
strategies and every starting state whose deck cursor is at most 32 and
whose turn index is 0 or 1, the game returns the last mover's index
(`1 - current` after the final turn flip) exactly when the final heap is 51,
the opponent's index (`current`; the mover lost) exactly when the final heap
exceeds 51, and the draw result 2 exactly when the deck is exhausted
(`drawn = 32`) with the final heap strictly below 51. -/
theorem c6_game_terminal_classification {σ1 σ2 : Type} (P1 : StratPlayer σ1)
    (P2 : StratPlayer σ2) (s : GState σ1 σ2) (h32 : s.drawn ≤ 32) (hcur : s.current ≤ 1) :
    (gameResult P1 P2 s = 1 - (gameLoop P1 P2 s).current ↔ (gameLoop P1 P2 s).heap = 51) ∧
    (gameResult P1 P2 s = (gameLoop P1 P2 s).current ↔ 51 < (gameLoop P1 P2 s).heap) ∧
    (gameResult P1 P2 s = 2 ↔
      ((gameLoop P1 P2 s).drawn = 32 ∧ (gameLoop P1 P2 s).heap < 51)) := by
  obtain ⟨hd32, hc1, hexit⟩ := gameLoop_exit P1 P2 (32 - s.drawn) s (le_refl _) h32 hcur
  set f := gameLoop P1 P2 s with hf
  have hres : gameResult P1 P2 s =
      if f.heap = 51 then 1 - f.current else if 51 < f.heap then f.current else 2 := by
    rw [hf]
    rfl
  rw [hres]
  by_cases h51 : f.heap = 51
  · rw [if_pos h51]
    refine ⟨⟨fun _ => h51, fun _ => rfl⟩, ⟨fun hq => ?_, fun hgt => ?_⟩,
      ⟨fun hq => ?_, fun hq => ?_⟩⟩
    · exfalso
      omega
    · exfalso
      omega
    · exfalso
      omega
    · exfalso
      omega
  · rw [if_neg h51]
    by_cases hgt : 51 < f.heap
    · rw [if_pos hgt]
      refine ⟨⟨fun hq => ?_, fun h => absurd h h51⟩, ⟨fun _ => hgt, fun _ => rfl⟩,
        ⟨fun hq => ?_, fun hq => ?_⟩⟩
      · exfalso
        omega
      · exfalso
        omega
      · exfalso
        omega
    · rw [if_neg hgt]
      have hheap : f.heap < 51 := by omega
      have hnd : ¬f.drawn < 32 := fun hlt => hexit ⟨hlt, hheap⟩
      have hdrawn : f.drawn = 32 := by omega
      refine ⟨⟨fun hq => ?_, fun h => absurd h h51⟩, ⟨fun hq => ?_, fun h => absurd h hgt⟩,
        ⟨fun _ => ⟨hdrawn, hheap⟩, fun _ => rfl⟩⟩
      · exfalso
        omega
      · exfalso
        omega

/-- C6 witness: two trivial strategies on an exhausted deck (cursor 32) with
heap 0 — the classification instantiates (the run is an immediate draw). -/
theorem c6_witness :
    (gameResult (StratPlayer.mk (fun (st : Unit) _ _ => ((0 : ℕ), (7 : ℤ))) (fun st _ => st))
        (StratPlayer.mk (fun (st : Unit) _ _ => ((0 : ℕ), (7 : ℤ))) (fun st _ => st))
        (GState.mk 0 [] 32 [] [] () () 0 none) =
      1 - (gameLoop (StratPlayer.mk (fun (st : Unit) _ _ => ((0 : ℕ), (7 : ℤ)))
          (fun st _ => st))
        (StratPlayer.mk (fun (st : Unit) _ _ => ((0 : ℕ), (7 : ℤ))) (fun st _ => st))
        (GState.mk 0 [] 32 [] [] () () 0 none)).current ↔
      (gameLoop (StratPlayer.mk (fun (st : Unit) _ _ => ((0 : ℕ), (7 : ℤ))) (fun st _ => st))
        (StratPlayer.mk (fun (st : Unit) _ _ => ((0 : ℕ), (7 : ℤ))) (fun st _ => st))
        (GState.mk 0 [] 32 [] [] () () 0 none)).heap = 51) ∧
    (gameResult (StratPlayer.mk (fun (st : Unit) _ _ => ((0 : ℕ), (7 : ℤ))) (fun st _ => st))
        (StratPlayer.mk (fun (st : Unit) _ _ => ((0 : ℕ), (7 : ℤ))) (fun st _ => st))
        (GState.mk 0 [] 32 [] [] () () 0 none) =
      (gameLoop (StratPlayer.mk (fun (st : Unit) _ _ => ((0 : ℕ), (7 : ℤ))) (fun st _ => st))
        (StratPlayer.mk (fun (st : Unit) _ _ => ((0 : ℕ), (7 : ℤ))) (fun st _ => st))
        (GState.mk 0 [] 32 [] [] () () 0 none)).current ↔
      51 < (gameLoop (StratPlayer.mk (fun (st : Unit) _ _ => ((0 : ℕ), (7 : ℤ)))
          (fun st _ => st))
        (StratPlayer.mk (fun (st : Unit) _ _ => ((0 : ℕ), (7 : ℤ))) (fun st _ => st))
        (GState.mk 0 [] 32 [] [] () () 0 none)).heap) ∧
    (gameResult (StratPlayer.mk (fun (st : Unit) _ _ => ((0 : ℕ), (7 : ℤ))) (fun st _ => st))
        (StratPlayer.mk (fun (st : Unit) _ _ => ((0 : ℕ), (7 : ℤ))) (fun st _ => st))
        (GState.mk 0 [] 32 [] [] () () 0 none) = 2 ↔
      ((gameLoop (StratPlayer.mk (fun (st : Unit) _ _ => ((0 : ℕ), (7 : ℤ)))
          (fun st _ => st))
        (StratPlayer.mk (fun (st : Unit) _ _ => ((0 : ℕ), (7 : ℤ))) (fun st _ => st))
        (GState.mk 0 [] 32 [] [] () () 0 none)).drawn = 32 ∧
      (gameLoop (StratPlayer.mk (fun (st : Unit) _ _ => ((0 : ℕ), (7 : ℤ))) (fun st _ => st))
        (StratPlayer.mk (fun (st : Unit) _ _ => ((0 : ℕ), (7 : ℤ))) (fun st _ => st))
        (GState.mk 0 [] 32 [] [] () () 0 none)).heap < 51)) :=
  c6_game_terminal_classification
    (StratPlayer.mk (fun (st : Unit) _ _ => ((0 : ℕ), (7 : ℤ))) (fun st _ => st))
    (StratPlayer.mk (fun (st : Unit) _ _ => ((0 : ℕ), (7 : ℤ))) (fun st _ => st))
    (GState.mk 0 [] 32 [] [] () () 0 none) (by decide) (by decide)

theorem sumLWD_addLWD (a b : LWD) : sumLWD (addLWD a b) = sumLWD a + sumLWD b := by
  simp only [sumLWD, addLWD]
  ring

theorem foldl_addLWD_sum (L : List LWD) (z : LWD) :
    sumLWD (L.foldl addLWD z) = sumLWD z + (L.map sumLWD).sum := by
  induction L generalizing z with
  | nil => simp
  | cons x xs ih =>
    show sumLWD (xs.foldl addLWD (addLWD z x)) = _
    rw [ih (addLWD z x), sumLWD_addLWD]
    simp [List.sum_cons]
    ring

theorem map_sum_ones {L : List LWD} (h : ∀ x ∈ L, sumLWD x = 1) :
    (L.map sumLWD).sum = (L.length : ℚ) := by
  induction L with
  | nil => simp
  | cons x xs ih =>
    have hx : sumLWD x = 1 := h x (List.mem_cons_self x xs)
    have hxs : ∀ y ∈ xs, sumLWD y = 1 := fun y hy => h y (List.mem_cons_of_mem x hy)
    simp [hx, ih hxs]
    ring

theorem normalize_foldl_sum (L : List LWD) (hmem : ∀ x ∈ L, sumLWD x = 1) (hne : L ≠ []) :
    sumLWD (if 0 < sumLWD (L.foldl addLWD ⟨0, 0, 0⟩) then
      (⟨(L.foldl addLWD ⟨0, 0, 0⟩).l / sumLWD (L.foldl addLWD ⟨0, 0, 0⟩),
        (L.foldl addLWD ⟨0, 0, 0⟩).w / sumLWD (L.foldl addLWD ⟨0, 0, 0⟩),
        (L.foldl addLWD ⟨0, 0, 0⟩).d / sumLWD (L.foldl addLWD ⟨0, 0, 0⟩)⟩ : LWD)
    else L.foldl addLWD ⟨0, 0, 0⟩) = 1 := by
  have hsum : sumLWD (L.foldl addLWD ⟨0, 0, 0⟩) = (L.length : ℚ) := by
    rw [foldl_addLWD_sum, map_sum_ones hmem]
    simp [sumLWD]
  have hposn : 0 < L.length := List.length_pos.mpr hne
  have hpos : 0 < sumLWD (L.foldl addLWD ⟨0, 0, 0⟩) := by
    rw [hsum]
    exact_mod_cast hposn
  rw [if_pos hpos]
  show (L.foldl addLWD ⟨0, 0, 0⟩).l / sumLWD (L.foldl addLWD ⟨0, 0, 0⟩) +
      (L.foldl addLWD ⟨0, 0, 0⟩).w / sumLWD (L.foldl addLWD ⟨0, 0, 0⟩) +
      (L.foldl addLWD ⟨0, 0, 0⟩).d / sumLWD (L.foldl addLWD ⟨0, 0, 0⟩) = 1
  rw [div_add_div_same, div_add_div_same]
  have hnum : (L.foldl addLWD ⟨0, 0, 0⟩).l + (L.foldl addLWD ⟨0, 0, 0⟩).w +
      (L.foldl addLWD ⟨0, 0, 0⟩).d = sumLWD (L.foldl addLWD ⟨0, 0, 0⟩) := by
    rw [sumLWD]
  rw [hnum]
  exact div_self (ne_of_gt hpos)

theorem maxByScore_mem (k : ℚ) (x : LWD) (xs : List LWD) : maxByScore k x xs ∈ x :: xs := by
  induction xs generalizing x with
  | nil => simp [maxByScore]
  | cons y ys ih =>
    rw [maxByScore]
    split
    · have h := ih y
      rcases List.mem_cons.mp h with h1 | h2
      · rw [h1]
        exact List.mem_cons_of_mem x (List.mem_cons_self y ys)
      · exact List.mem_cons_of_mem x (List.mem_cons_of_mem y h2)
    · have h := ih x
      rcases List.mem_cons.mp h with h1 | h2
      · rw [h1]
        exact List.mem_cons_self x (y :: ys)
      · exact List.mem_cons_of_mem x (List.mem_cons_of_mem y h2)

theorem best_option_from_lwd_mem {lwds : List LWD} (h : lwds ≠ []) (k : ℚ) :
    best_option_from_lwd lwds k ∈ lwds := by
  cases lwds with
  | nil => exact absurd rfl h
  | cons x xs => exact maxByScore_mem k x xs

theorem exhaustive_search_ne_nil (hand unseen : List ℕ) (heap : ℤ) :
    exhaustive_search hand unseen heap ≠ [] := by
  rw [exhaustive_search]
  intro h
  rw [List.map_eq_nil_iff] at h
  exact build_options_ne_nil hand heap h

theorem search_sum_of_opp {unseen : List ℕ}
    (hopp : ∀ (option : ℤ) (heap : ℤ) (new_hand : List ℕ), 2 ≤ unseen.length →
      sumLWD (exhaustive_search_opp option unseen heap new_hand) = 1) :
    ∀ (hand : List ℕ) (heap : ℤ), ∀ r ∈ exhaustive_search hand unseen heap, sumLWD r = 1 := by
  intro hand heap r hr
  rw [exhaustive_search] at hr
  obtain ⟨p, hp, hpr⟩ := List.mem_map.mp hr
  rw [← hpr]
  by_cases h1 : p.1 = 51
  · rw [if_pos h1]
    norm_num [sumLWD]
  · rw [if_neg h1]
    by_cases h2 : 51 < p.1
    · rw [if_pos h2]
      norm_num [sumLWD]
    · rw [if_neg h2]
      by_cases h3 : unseen.length < 7
      · rw [if_pos h3]
        norm_num [sumLWD]
      · rw [if_neg h3]
        exact hopp p.1 heap (hand.eraseIdx p.2) (by omega)

theorem solver_sum_main : ∀ (n : ℕ) (unseen : List ℕ), unseen.length ≤ n → unseen.Nodup →
    (∀ (option : ℤ) (heap : ℤ) (new_hand : List ℕ), 2 ≤ unseen.length →
      sumLWD (exhaustive_search_opp option unseen heap new_hand) = 1) ∧
    (∀ (hand : List ℕ) (heap : ℤ), ∀ r ∈ exhaustive_search hand unseen heap, sumLWD r = 1) := by
  intro n
  induction n with
  | zero =>
    intro unseen hlen _
    have hopp : ∀ (option : ℤ) (heap : ℤ) (new_hand : List ℕ), 2 ≤ unseen.length →
        sumLWD (exhaustive_search_opp option unseen heap new_hand) = 1 := by
      intro _ _ _ h2
      omega
    exact ⟨hopp, search_sum_of_opp hopp⟩
  | succ n ih =>
    intro unseen hlen hnd
    have hopp : ∀ (option : ℤ) (heap : ℤ) (new_hand : List ℕ), 2 ≤ unseen.length →
        sumLWD (exhaustive_search_opp option unseen heap new_hand) = 1 := by
      intro option heap new_hand h2
      simp only [exhaustive_search_opp]
      refine normalize_foldl_sum _ ?_ ?_
      · intro x hx
        simp only [List.mem_flatMap, List.mem_map] at hx
        obtain ⟨nc, -, oc, -, opp_val, hov, hbody⟩ := hx
        rw [← hbody]
        have hoc := List.mem_filter.mp oc.2
        split_ifs with h51 hgt
        · norm_num [sumLWD]
        · norm_num [sumLWD]
        · norm_num [sumLWD]
        · have hocu : (oc.1 : ℕ) ∈ unseen := hoc.1
          have hne2 : (nc.1 : ℕ) ≠ oc.1 := by
            have hb : (oc.1 : ℕ) ≠ nc.1 := by simpa using hoc.2
            exact hb.symm
          have hncu : (nc.1 : ℕ) ∈ unseen.erase oc.1 :=
            (List.mem_erase_of_ne hne2).mpr nc.2
          have he1 : (unseen.erase oc.1).length = unseen.length - 1 :=
            List.length_erase_of_mem hocu
          have he2 : ((unseen.erase oc.1).erase nc.1).length =
              (unseen.erase oc.1).length - 1 :=
            List.length_erase_of_mem hncu
          have hnd2 : ((unseen.erase oc.1).erase nc.1).Nodup := (hnd.erase oc.1).erase nc.1
          have hlen2 : ((unseen.erase oc.1).erase nc.1).length ≤ n := by omega
          have hbm := best_option_from_lwd_mem
            (exhaustive_search_ne_nil (new_hand ++ [nc.1])
              ((unseen.erase oc.1).erase nc.1) (option + opp_val)) (9/10)
          exact (ih ((unseen.erase oc.1).erase nc.1) hlen2 hnd2).2 (new_hand ++ [nc.1])
            (option + opp_val) _ hbm
      · intro hnil
        obtain ⟨a, l1, rfl⟩ : ∃ a l1, unseen = a :: l1 := by
          cases unseen with
          | nil => simp at h2
          | cons a l1 => exact ⟨a, l1, rfl⟩
        obtain ⟨b, l2, rfl⟩ : ∃ b l2, l1 = b :: l2 := by
          cases l1 with
          | nil => simp at h2
          | cons b l2 => exact ⟨b, l2, rfl⟩
        have hab : a ≠ b := by
          have := List.nodup_cons.mp hnd
          intro hq
          exact this.1 (by simp [hq])
        rw [List.flatMap_eq_nil_iff] at hnil
        have h1 := hnil ⟨a, by simp⟩ (List.mem_attach _ _)
        rw [List.flatMap_eq_nil_iff] at h1
        have hbf : b ∈ (a :: b :: l2).filter (fun c => c != a) := by
          simp [List.mem_filter, bne_iff_ne, Ne.symm hab]
        have h2f := h1 ⟨b, hbf⟩ (List.mem_attach _ _)
        rw [List.map_eq_nil_iff] at h2f
        exact legalVals_ne_nil b h2f
    exact ⟨hopp, search_sum_of_opp hopp⟩

/-- C7: Exact solver normalization — for every 5-card hand, heap and
duplicate-free unseen pool, every outcome vector the exact endgame search
returns sums exactly to 1 (the degenerate win/loss/draw vectors and the
recursively accumulated vectors after normalization alike), over exact
rational arithmetic. -/
theorem c7_solver_normalization (hand unseen : List ℕ) (heap : ℤ)
    (hlen : hand.length = 5) (hnd : unseen.Nodup) :
    List.Forall (fun r => sumLWD r = 1) (exhaustive_search hand unseen heap) := by
  rw [List.forall_iff_forall_mem]
  exact (solver_sum_main unseen.length unseen (le_refl _) hnd).2 hand heap

/-- C7 witness: the hand `[0, 1, 2, 3, 4]` with an empty unseen pool at
heap 0. -/
theorem c7_witness :
    List.Forall (fun r => sumLWD r = 1) (exhaustive_search [0, 1, 2, 3, 4] [] 0) :=
  c7_solver_normalization [0, 1, 2, 3, 4] [] 0 (by decide) (by decide)
